import Mathlib

/-!
Verification of the jam-conformance-dashboard aggregation tool.

The tool (src/index.ts, full variant; src/unnamed/part_000, simplified
variant) parses per-branch fuzz summary files, folds the extracted
(team, trace-id, status) facts into a two-level map with last-write-wins
semantics, partitions traces by presence of a failure, renders a Markdown
table and splices it between two marker comments in a README.

JavaScript `Map`s are modelled as insertion-ordered association lists
(`Map.set` on an existing key updates in place, otherwise appends), the
line regex as an explicit leftmost-match scan, `Array.sort` as insertion
sort (the comparators used are total, transitive and antisymmetric, so the
sorted result is unique and insertion sort is a faithful model), and the
README splice as list take/drop around the first occurrences of the two
markers.
-/

namespace JamDash

/-- The two recorded statuses; absence of an entry is the implicit third
"unknown" state. -/
inductive Status where
  | red
  | green
deriving DecidableEq, Repr

/-- The red (fail) glyph U+1F534 matched by the regex character class. -/
def redGlyph : Char := '🔴'

/-- The green (pass) glyph U+1F7E2 matched by the regex character class. -/
def greenGlyph : Char := '🟢'

/-- JavaScript regex `\s` (Unicode white space) as a character predicate. -/
def isJsWhitespace (c : Char) : Bool :=
  let n := c.toNat
  n == 9 || n == 10 || n == 11 || n == 12 || n == 13 || n == 32 ||
  n == 0xa0 || n == 0x1680 || (0x2000 ≤ n && n ≤ 0x200a) ||
  n == 0x2028 || n == 0x2029 || n == 0x202f || n == 0x205f ||
  n == 0x3000 || n == 0xfeff

/-- Identifier characters: `[0-9_]` in the full variant (`u = true`),
`\d` in the simplified variant (`u = false`); `0`–`9` are code points
48–57 and `_` is code point 95. -/
def isIdChar (u : Bool) (c : Char) : Bool :=
  (48 ≤ c.toNat && c.toNat ≤ 57) || (u && c.toNat == 95)

/-- Which status a character stands for, per the regex character class
`[\u{1F534}\u{1F7E2}]`. -/
def statusOfGlyph (c : Char) : Option Status :=
  if c = redGlyph then some Status.red
  else if c = greenGlyph then some Status.green
  else none

/-- Attempt of the regex tail `\s+([0-9_]+)` right after a glyph: a
non-empty maximal run of whitespace followed by a non-empty maximal run of
identifier characters (the two classes are disjoint, so greedy matching
needs no backtracking). Returns the captured identifier. -/
def matchAfterGlyph (u : Bool) (cs : List Char) : Option (List Char) :=
  if (cs.takeWhile isJsWhitespace).isEmpty then none
  else if ((cs.dropWhile isJsWhitespace).takeWhile (isIdChar u)).isEmpty then
    none
  else some ((cs.dropWhile isJsWhitespace).takeWhile (isIdChar u))

/-- `line.match(/([\u{1F534}\u{1F7E2}])\s+([0-9_]+)/u)`: leftmost match of
glyph-whitespace-identifier, returning the status and the identifier
capture, or `none` when the line does not match. -/
def findMatch (u : Bool) : List Char → Option (Status × List Char)
  | [] => none
  | c :: cs =>
    match statusOfGlyph c with
    | some s =>
      match matchAfterGlyph u cs with
      | some ds => some (s, ds)
      | none => findMatch u cs
    | none => findMatch u cs

/-- Pairs emitted for one line: one on a match, none otherwise. -/
def parseLine (u : Bool) (line : List Char) : List (Status × List Char) :=
  match findMatch u line with
  | some p => [p]
  | none => []

/-- `content.split("\n")` on the character list. -/
def splitLines : List Char → List (List Char)
  | [] => [[]]
  | c :: cs =>
    if c = '\n' then [] :: splitLines cs
    else
      match splitLines cs with
      | [] => [[c]]
      | l :: rest => (c :: l) :: rest

/-! ### Association lists modelling JavaScript `Map` -/

/-- `Map.get`. -/
def getA {β : Type} : List (String × β) → String → Option β
  | [], _ => none
  | p :: rest, key => if p.1 = key then some p.2 else getA rest key

/-- `Map.set`: update in place when the key exists (keeping its insertion
position), otherwise append at the end. -/
def setA {β : Type} : List (String × β) → String → β → List (String × β)
  | [], key, v => [(key, v)]
  | p :: rest, key, v =>
    if p.1 = key then (key, v) :: rest else p :: setA rest key v

/-- `Map.keys()` in insertion order. -/
def keysA {β : Type} (l : List (String × β)) : List String :=
  l.map Prod.fst

/-- The two-level result table, TraceID -> (Team -> Status). -/
abbrev Results := List (String × List (String × Status))

/-- Recording one extracted fact, per the body of the line loop:
`if (!results.has(traceId)) results.set(traceId, new Map());`
`results.get(traceId)?.set(teamName, status)`. -/
def recordResult (rs : Results) (traceId team : String) (s : Status) :
    Results :=
  match getA rs traceId with
  | some inner => setA rs traceId (setA inner team s)
  | none => rs ++ [(traceId, [(team, s)])]

/-- `results.get(trace)?.get(team)`. -/
def getStatus (rs : Results) (traceId team : String) : Option Status :=
  match getA rs traceId with
  | some inner => getA inner team
  | none => none

/-- `allTeams.add(teamName)` on an insertion-ordered set. -/
def addTeam (ts : List String) (team : String) : List String :=
  if team ∈ ts then ts else ts ++ [team]

/-- The aggregation state: the result table and the set of teams seen. -/
structure AggState where
  results : Results
  allTeams : List String

/-- The facts one summary file contributes, in line order. -/
def fileEvents (u : Bool) (content : String) : List (Status × String) :=
  (splitLines content.toList).filterMap
    (fun line => (findMatch u line).map (fun p => (p.1, String.mk p.2)))

/-- Processing one summary file: the team is added to the team set, then
every matching line's fact is recorded. -/
def processFile (u : Bool) (st : AggState) (team : String)
    (content : String) : AggState :=
  (fileEvents u content).foldl
    (fun acc e => { acc with results := recordResult acc.results e.2 team e.1 })
    { st with allTeams := addTeam st.allTeams team }

/-- Processing one branch: a branch is the list of (team, file content)
pairs its summary directory yields, in listing order. -/
def processBranch (u : Bool) (st : AggState)
    (files : List (String × String)) : AggState :=
  files.foldl (fun acc f => processFile u acc f.1 f.2) st

/-- Processing a whole run over the branches in listing order, starting
from the empty state. -/
def processRun (u : Bool) (branches : List (List (String × String))) :
    AggState :=
  branches.foldl (processBranch u) ⟨[], []⟩

/-! ### Extraction events flattened over a run (for last-write-wins) -/

/-- The (team, trace-id, status) records one file contributes, in order. -/
def fileRecords (u : Bool) (team : String) (content : String) :
    List (String × String × Status) :=
  (fileEvents u content).map (fun e => (team, e.2, e.1))

/-- All records of one branch, in file listing order. -/
def branchRecords (u : Bool) (files : List (String × String)) :
    List (String × String × Status) :=
  (files.map (fun f => fileRecords u f.1 f.2)).flatten

/-- All records of a run, in branch processing order. -/
def runRecords (u : Bool) (branches : List (List (String × String))) :
    List (String × String × Status) :=
  (branches.map (branchRecords u)).flatten

/-- The statuses extracted for a fixed (trace, team) pair, in processing
order. -/
def statusesFor (recs : List (String × String × Status))
    (traceId team : String) : List Status :=
  recs.filterMap
    (fun r => if r.1 = team ∧ r.2.1 = traceId then some r.2.2 else none)

/-- Folding one record into the result table. -/
def applyRec (rs : Results) (r : String × String × Status) : Results :=
  recordResult rs r.2.1 r.1 r.2.2

/-- Trace identifiers extracted anywhere in the run. -/
def tracesSeen (u : Bool) (branches : List (List (String × String))) :
    List String :=
  (runRecords u branches).map (fun r => r.2.1)

/-! ### Sorting (JavaScript `Array.sort` with the two comparators) -/

/-- Lexicographic comparison of character lists by code point, the order
JavaScript's default string comparison uses on the characters at hand. -/
def charListLe : List Char → List Char → Bool
  | [], _ => true
  | _ :: _, [] => false
  | a :: as, b :: bs =>
    if a.toNat < b.toNat then true
    else if b.toNat < a.toNat then false
    else charListLe as bs

theorem charListLe_cons (a b : Char) (as bs : List Char) :
    charListLe (a :: as) (b :: bs) =
      if a.toNat < b.toNat then true
      else if b.toNat < a.toNat then false
      else charListLe as bs := rfl

/-- String comparison used by `Array.prototype.sort`'s default comparator
and by `localeCompare` on the plain ASCII names at hand. -/
def strLe (a b : String) : Prop :=
  charListLe a.toList b.toList = true

instance : DecidableRel strLe := fun a b =>
  inferInstanceAs (Decidable (charListLe a.toList b.toList = true))

theorem char_toNat_inj {a b : Char} (h : a.toNat = b.toNat) : a = b :=
  Char.ext (UInt32.ext h)

theorem charListLe_total : ∀ as bs : List Char,
    charListLe as bs = true ∨ charListLe bs as = true := by
  intro as
  induction as with
  | nil => intro bs; exact Or.inl rfl
  | cons a as ih =>
    intro bs
    cases bs with
    | nil => exact Or.inr rfl
    | cons b bs =>
      rw [charListLe_cons, charListLe_cons]
      by_cases hab : a.toNat < b.toNat
      · exact Or.inl (by rw [if_pos hab])
      · by_cases hba : b.toNat < a.toNat
        · exact Or.inr (by rw [if_pos hba])
        · rcases ih bs with h | h
          · exact Or.inl (by rw [if_neg hab, if_neg hba]; exact h)
          · exact Or.inr (by rw [if_neg hba, if_neg hab]; exact h)

theorem charListLe_trans : ∀ as bs cs : List Char,
    charListLe as bs = true → charListLe bs cs = true →
      charListLe as cs = true := by
  intro as
  induction as with
  | nil => intro bs cs h1 h2; rfl
  | cons a as ih =>
    intro bs cs h1 h2
    cases bs with
    | nil => simp [charListLe] at h1
    | cons b bs =>
      cases cs with
      | nil => simp [charListLe] at h2
      | cons c cs =>
        rw [charListLe_cons] at h1 h2 ⊢
        by_cases hab : a.toNat < b.toNat <;>
          by_cases hba : b.toNat < a.toNat <;>
          by_cases hbc : b.toNat < c.toNat <;>
          by_cases hcb : c.toNat < b.toNat <;>
          first
          | omega
          | (rw [if_pos (by omega)])
          | (rw [if_neg hab, if_neg hba] at h1
             rw [if_neg hbc, if_neg hcb] at h2
             rw [if_neg (by omega : ¬ a.toNat < c.toNat),
               if_neg (by omega : ¬ c.toNat < a.toNat)]
             exact ih bs cs h1 h2)
          | (rw [if_neg hab, if_pos hba] at h1; cases h1)
          | (rw [if_neg hbc, if_pos hcb] at h2; cases h2)

theorem charListLe_antisymm : ∀ as bs : List Char,
    charListLe as bs = true → charListLe bs as = true → as = bs := by
  intro as
  induction as with
  | nil =>
    intro bs h1 h2
    cases bs with
    | nil => rfl
    | cons b bs => simp [charListLe] at h2
  | cons a as ih =>
    intro bs h1 h2
    cases bs with
    | nil => simp [charListLe] at h1
    | cons b bs =>
      rw [charListLe_cons] at h1 h2
      by_cases hab : a.toNat < b.toNat
      · rw [if_neg (by omega), if_pos hab] at h2
        cases h2
      · by_cases hba : b.toNat < a.toNat
        · rw [if_neg hab, if_pos hba] at h1
          cases h1
        · rw [if_neg hab, if_neg hba] at h1
          rw [if_neg hba, if_neg hab] at h2
          rw [char_toNat_inj (by omega : a.toNat = b.toNat), ih bs h1 h2]

instance : IsTotal String strLe :=
  ⟨fun a b => charListLe_total a.toList b.toList⟩

instance : IsTrans String strLe :=
  ⟨fun a b c => charListLe_trans a.toList b.toList c.toList⟩

theorem string_toList_inj {a b : String} (h : a.toList = b.toList) :
    a = b := by
  cases a
  cases b
  simp_all [String.toList]

instance : IsAntisymm String strLe :=
  ⟨fun a b h1 h2 =>
    string_toList_inj (charListLe_antisymm a.toList b.toList h1 h2)⟩

/-- The team comparator of the full variant as a relation: `a` sorts no
later than `b` iff `a` is the priority team, or `b` is not the priority
team and `a` is alphabetically no greater. -/
def teamRel (a b : String) : Prop :=
  a = "typeberry" ∨ (b ≠ "typeberry" ∧ strLe a b)

instance : DecidableRel teamRel := fun a b =>
  inferInstanceAs (Decidable (a = "typeberry" ∨ (b ≠ "typeberry" ∧ strLe a b)))

instance : IsTotal String teamRel := by
  constructor
  intro a b
  by_cases ha : a = "typeberry"
  · exact Or.inl (Or.inl ha)
  · by_cases hb : b = "typeberry"
    · exact Or.inr (Or.inl hb)
    · rcases IsTotal.total (r := strLe) a b with h | h
      · exact Or.inl (Or.inr ⟨hb, h⟩)
      · exact Or.inr (Or.inr ⟨ha, h⟩)

instance : IsTrans String teamRel := by
  constructor
  intro a b c hab hbc
  rcases hab with ha | ⟨hb, hab⟩
  · exact Or.inl ha
  · rcases hbc with hb2 | ⟨hc, hbc⟩
    · exact absurd hb2 hb
    · exact Or.inr ⟨hc, Trans.trans hab hbc⟩

instance : IsAntisymm String teamRel := by
  constructor
  intro a b hab hba
  rcases hab with ha | ⟨hb, hab⟩
  · rcases hba with hb2 | ⟨ha2, _⟩
    · exact ha.trans hb2.symm
    · exact absurd ha ha2
  · rcases hba with hb2 | ⟨_, hba⟩
    · exact absurd hb2 hb
    · exact antisymm hab hba

/-- `Array.from(results.keys()).sort()`: trace keys sorted by the default
comparator (code-unit lexicographic order). -/
def sortedTracesOf (rs : Results) : List String :=
  (keysA rs).insertionSort strLe

/-- `Array.from(allTeams).sort(comparator)` of the full variant. -/
def sortedTeamsOf (ts : List String) : List String :=
  ts.insertionSort teamRel

/-! ### Partitioning traces -/

/-- The per-trace failure test of the partition loop: look up the trace's
team map; if present, scan the sorted teams for a recorded red status. -/
def hasFailure (rs : Results) (teams : List String) (t : String) : Bool :=
  match getA rs t with
  | none => false
  | some m => teams.any (fun tm => decide (getA m tm = some Status.red))

/-- Traces pushed onto `interestingTraces`, in trace order. -/
def interestingTraces (rs : Results) (teams : List String) : List String :=
  (sortedTracesOf rs).filter (hasFailure rs teams)

/-- Traces pushed onto `boringTraces`, in trace order. -/
def boringTraces (rs : Results) (teams : List String) : List String :=
  (sortedTracesOf rs).filter (fun t => ! hasFailure rs teams t)

/-! ### Per-team statistics and table rendering -/

/-- Per-team counts (red, green, unknown) over the given trace list, per
the `teamStats` loop. -/
def teamStats (rs : Results) (traces : List String) (team : String) :
    Nat × Nat × Nat :=
  traces.foldl
    (fun acc t =>
      match getStatus rs t team with
      | some Status.red => (acc.1 + 1, acc.2.1, acc.2.2)
      | some Status.green => (acc.1, acc.2.1 + 1, acc.2.2)
      | none => (acc.1, acc.2.1, acc.2.2 + 1))
    (0, 0, 0)

def REPO_URL : String := "https://github.com/w3f/jam-conformance"

def TRACES_REL_PATH : String := "fuzz-reports/0.7.2/traces"

/-- Glyph rendered for a recorded status. -/
def statusGlyph : Status → String
  | Status.red => "🔴"
  | Status.green => "🟢"

/-- `linkify`: hyperlink a trace to its recorded branch when known. -/
def linkify (bm : List (String × String)) (traceId : String) : String :=
  match getA bm traceId with
  | some branch =>
    "[" ++ traceId ++ "](" ++ REPO_URL ++ "/tree/" ++ branch ++ "/" ++
      TRACES_REL_PATH ++ "/" ++ traceId ++ ")"
  | none => traceId

/-- The 🔴 summary row. -/
def redRowOf (rs : Results) (allTraces sortedTeams : List String) : String :=
  sortedTeams.foldl
    (fun row team => row ++ " " ++ toString (teamStats rs allTraces team).1 ++ " |")
    "| 🔴 |"

/-- The 🟢 summary row. -/
def greenRowOf (rs : Results) (allTraces sortedTeams : List String) : String :=
  sortedTeams.foldl
    (fun row team => row ++ " " ++ toString (teamStats rs allTraces team).2.1 ++ " |")
    "| 🟢 |"

/-- The ⚪ summary row. -/
def unknownRowOf (rs : Results) (allTraces sortedTeams : List String) : String :=
  sortedTeams.foldl
    (fun row team => row ++ " " ++ toString (teamStats rs allTraces team).2.2 ++ " |")
    "| ⚪ |"

/-- One data row for an interesting trace. -/
def dataRowOf (rs : Results) (bm : List (String × String))
    (sortedTeams : List String) (trace : String) : String :=
  sortedTeams.foldl
    (fun row team =>
      row ++ " " ++
        (match getStatus rs trace team with
         | some s => statusGlyph s
         | none => "⚪") ++ " |")
    ("| " ++ linkify bm trace ++ " |")

/-- The transposed Markdown table of the full variant (header, separator,
three summary rows, then one row per interesting trace). -/
def mdTableOf (rs : Results) (bm : List (String × String))
    (sortedTeams allTraces interesting : List String) : String :=
  interesting.foldl
    (fun acc trace => acc ++ dataRowOf rs bm sortedTeams trace ++ "\n")
    ("| Trace | " ++ String.intercalate " | " sortedTeams ++ " |\n" ++
      ("|---|" ++ String.intercalate "|" (sortedTeams.map (fun _ => "---")) ++
        "|\n") ++
      redRowOf rs allTraces sortedTeams ++ "\n" ++
      greenRowOf rs allTraces sortedTeams ++ "\n" ++
      unknownRowOf rs allTraces sortedTeams ++ "\n")

/-- The whole table generation step as a function of the result table, the
branch map and the team set: sort, partition, render. -/
def renderTable (rs : Results) (bm : List (String × String))
    (teams : List String) : String :=
  mdTableOf rs bm (sortedTeamsOf teams) (sortedTracesOf rs)
    (interestingTraces rs (sortedTeamsOf teams))

/-! ### Template updater -/

def startMarker : String := "<!-- CONFORMANCE_TABLE_START -->"

def endMarker : String := "<!-- CONFORMANCE_TABLE_END -->"

/-- `String.prototype.indexOf`: position of the first occurrence of
`needle`, or `none`. -/
def indexOfSub (needle : List Char) : List Char → Option Nat
  | [] => if needle = [] then some 0 else none
  | c :: rest =>
    if needle.isPrefixOf (c :: rest) then some 0
    else (indexOfSub needle rest).map (fun n => n + 1)

/-- The README splice: when both markers are found, keep everything up to
the end of the start marker, insert the padded table, and keep everything
from the start of the end marker on; otherwise report failure. -/
def updateDoc (doc table : List Char) : Option (List Char) :=
  match indexOfSub startMarker.toList doc, indexOfSub endMarker.toList doc with
  | some si, some ei =>
    let before := doc.take (si + startMarker.toList.length)
    let after := doc.drop ei
    some (before ++ "\n\n".toList ++ table ++ "\n".toList ++ after)
  | _, _ => none

/-- The document content on disk after the run: rewritten on success, left
untouched when a marker is missing. -/
def writtenDoc (doc table : List Char) : List Char :=
  match updateDoc doc table with
  | some c => c
  | none => doc

/-! ### Run-level abbreviations -/

/-- The result table a run produces. -/
def runResults (u : Bool) (bs : List (List (String × String))) : Results :=
  (processRun u bs).results

/-- The sorted team list a run produces (full variant comparator). -/
def runTeams (u : Bool) (bs : List (List (String × String))) : List String :=
  sortedTeamsOf (processRun u bs).allTeams

/-- The sorted trace list a run produces. -/
def runTraces (u : Bool) (bs : List (List (String × String))) : List String :=
  sortedTracesOf (runResults u bs)

/-- The interesting partition of a run's traces. -/
def runInteresting (u : Bool) (bs : List (List (String × String))) :
    List String :=
  interestingTraces (runResults u bs) (runTeams u bs)

/-- The boring partition of a run's traces. -/
def runBoring (u : Bool) (bs : List (List (String × String))) :
    List String :=
  boringTraces (runResults u bs) (runTeams u bs)

/-! ### Lemmas about association lists -/

theorem getA_cons {β : Type} (p : String × β) (rest : List (String × β))
    (j : String) :
    getA (p :: rest) j = if p.1 = j then some p.2 else getA rest j := rfl

theorem getA_setA {β : Type} (l : List (String × β)) (k j : String) (v : β) :
    getA (setA l k v) j = if k = j then some v else getA l j := by
  induction l with
  | nil => rfl
  | cons p rest ih =>
    show getA (if p.1 = k then (k, v) :: rest else p :: setA rest k v) j = _
    by_cases hp : p.1 = k
    · rw [if_pos hp]
      show (if k = j then some v else getA rest j) = _
      rw [getA_cons]
      by_cases hkj : k = j
      · rw [if_pos hkj, if_pos hkj]
      · rw [if_neg hkj, if_neg hkj, if_neg (fun h => hkj (hp.symm.trans h))]
    · rw [if_neg hp, getA_cons, getA_cons, ih]
      by_cases hpj : p.1 = j
      · rw [if_pos hpj, if_neg (fun h => hp (hpj.trans h.symm)), if_pos hpj]
      · by_cases hkj : k = j
        · rw [if_neg hpj, if_pos hkj, if_pos hkj]
        · rw [if_neg hpj, if_neg hkj, if_neg hkj, if_neg hpj]

theorem getA_append_single {β : Type} (l : List (String × β))
    (k j : String) (v : β) :
    getA (l ++ [(k, v)]) j =
      match getA l j with
      | some w => some w
      | none => if k = j then some v else none := by
  induction l with
  | nil => simp [getA]
  | cons p rest ih =>
    by_cases hpj : p.1 = j <;> simp [getA, hpj, ih]

theorem getStatus_recordResult (rs : Results) (tid team : String)
    (s : Status) (tid' team' : String) :
    getStatus (recordResult rs tid team s) tid' team' =
      if team = team' ∧ tid = tid' then some s
      else getStatus rs tid' team' := by
  unfold recordResult
  cases hget : getA rs tid with
  | some inner =>
    unfold getStatus
    rw [getA_setA]
    by_cases htid : tid = tid'
    · rw [if_pos htid]
      have hget2 : getA rs tid' = some inner := htid ▸ hget
      have hrs : (match getA rs tid' with
          | some m => getA m team'
          | none => none) = getA inner team' := by rw [hget2]
      rw [hrs]
      show getA (setA inner team s) team' = _
      rw [getA_setA]
      by_cases hteam : team = team'
      · rw [if_pos hteam, if_pos ⟨hteam, htid⟩]
      · rw [if_neg hteam, if_neg (fun hc => hteam hc.1)]
    · rw [if_neg htid, if_neg (fun hc => htid hc.2)]
  | none =>
    unfold getStatus
    rw [getA_append_single]
    by_cases htid : tid = tid'
    · have hget2 : getA rs tid' = none := htid ▸ hget
      rw [hget2]
      simp only [if_pos htid, getA]
      split_ifs <;> simp_all
    · rw [if_neg htid, if_neg (fun hc => htid hc.2)]
      cases hget2 : getA rs tid' <;> simp [getStatus, hget2]

/-! ### The result table as a fold over the flattened record list -/

theorem statusesFor_cons (r : String × String × Status)
    (recs : List (String × String × Status)) (tid team : String) :
    statusesFor (r :: recs) tid team =
      (if r.1 = team ∧ r.2.1 = tid then [r.2.2] else []) ++
        statusesFor recs tid team := by
  by_cases hc : r.1 = team ∧ r.2.1 = tid <;>
    simp [statusesFor, List.filterMap_cons, hc]

theorem statusesFor_append (recs1 recs2 : List (String × String × Status))
    (tid team : String) :
    statusesFor (recs1 ++ recs2) tid team =
      statusesFor recs1 tid team ++ statusesFor recs2 tid team := by
  simp [statusesFor, List.filterMap_append]

theorem getLast?_cons_eq (x : Status) (l : List Status) :
    (x :: l).getLast? =
      match l.getLast? with
      | some s => some s
      | none => some x := by
  induction l generalizing x with
  | nil => rfl
  | cons b bs ih =>
    rw [List.getLast?_cons_cons, ih b]
    cases hbs : bs.getLast? with
    | some s => rfl
    | none => rfl

theorem getStatus_foldl_applyRec (recs : List (String × String × Status)) :
    ∀ (rs : Results) (tid team : String),
      getStatus (recs.foldl applyRec rs) tid team =
        match (statusesFor recs tid team).getLast? with
        | some s => some s
        | none => getStatus rs tid team := by
  induction recs with
  | nil => intro rs tid team; simp [statusesFor]
  | cons r rest ih =>
    intro rs tid team
    rw [List.foldl_cons, ih, statusesFor_cons]
    have happ : getStatus (applyRec rs r) tid team =
        if r.1 = team ∧ r.2.1 = tid then some r.2.2
        else getStatus rs tid team := by
      show getStatus (recordResult rs r.2.1 r.1 r.2.2) tid team = _
      rw [getStatus_recordResult]
    by_cases hc : r.1 = team ∧ r.2.1 = tid
    · rw [if_pos hc, List.singleton_append, getLast?_cons_eq, happ, if_pos hc]
      cases hlast : (statusesFor rest tid team).getLast? with
      | some s => rfl
      | none => rfl
    · rw [if_neg hc, List.nil_append, happ, if_neg hc]

theorem foldl_state_results (team : String) (events : List (Status × String)) :
    ∀ st : AggState,
      (events.foldl
        (fun acc e =>
          { acc with results := recordResult acc.results e.2 team e.1 })
        st).results =
      events.foldl (fun rs e => recordResult rs e.2 team e.1) st.results := by
  induction events with
  | nil => intro st; rfl
  | cons e rest ih =>
    intro st
    rw [List.foldl_cons, List.foldl_cons, ih]

theorem foldl_state_allTeams (team : String)
    (events : List (Status × String)) :
    ∀ st : AggState,
      (events.foldl
        (fun acc e =>
          { acc with results := recordResult acc.results e.2 team e.1 })
        st).allTeams = st.allTeams := by
  induction events with
  | nil => intro st; rfl
  | cons e rest ih =>
    intro st
    rw [List.foldl_cons, ih]

theorem processFile_results (u : Bool) (st : AggState) (team content : String) :
    (processFile u st team content).results =
      (fileRecords u team content).foldl applyRec st.results := by
  unfold processFile fileRecords
  rw [foldl_state_results, List.foldl_map]
  rfl

theorem processFile_allTeams (u : Bool) (st : AggState)
    (team content : String) :
    (processFile u st team content).allTeams = addTeam st.allTeams team := by
  unfold processFile
  rw [foldl_state_allTeams]

theorem processBranch_results (u : Bool) (files : List (String × String)) :
    ∀ st : AggState,
      (processBranch u st files).results =
        (branchRecords u files).foldl applyRec st.results := by
  induction files with
  | nil => intro st; rfl
  | cons f rest ih =>
    intro st
    show (processBranch u (processFile u st f.1 f.2) rest).results = _
    rw [ih]
    simp only [branchRecords, List.map_cons, List.flatten_cons,
      List.foldl_append]
    rw [processFile_results]

theorem processRun_results_fold (u : Bool)
    (bs : List (List (String × String))) :
    ∀ st : AggState,
      (bs.foldl (processBranch u) st).results =
        (runRecords u bs).foldl applyRec st.results := by
  induction bs with
  | nil => intro st; rfl
  | cons b rest ih =>
    intro st
    show (rest.foldl (processBranch u) (processBranch u st b)).results = _
    rw [ih]
    simp only [runRecords, List.map_cons, List.flatten_cons,
      List.foldl_append]
    rw [processBranch_results]

theorem runResults_eq_fold (u : Bool) (bs : List (List (String × String))) :
    runResults u bs = (runRecords u bs).foldl applyRec [] := by
  unfold runResults processRun
  rw [processRun_results_fold]

theorem getStatus_runResults (u : Bool) (bs : List (List (String × String)))
    (tid team : String) :
    getStatus (runResults u bs) tid team =
      match (statusesFor (runRecords u bs) tid team).getLast? with
      | some s => some s
      | none => none := by
  rw [runResults_eq_fold, getStatus_foldl_applyRec]
  cases (statusesFor (runRecords u bs) tid team).getLast? with
  | some s => rfl
  | none => rfl

/-- Claim C2: when a (trace-id, team) pair is extracted once on branch B1
and once on branch B2, processed in listing order B1 then B2, with
different statuses, the status recorded in the result table at the end of
the run is the one extracted on B2. -/
theorem lastWriteWins (u : Bool) (B1 B2 : List (String × String))
    (tid team : String) (s1 s2 : Status)
    (h1 : statusesFor (branchRecords u B1) tid team = [s1])
    (h2 : statusesFor (branchRecords u B2) tid team = [s2])
    (hne : s1 ≠ s2) :
    getStatus (runResults u [B1, B2]) tid team = some s2 := by
  rw [getStatus_runResults]
  have hrr : runRecords u [B1, B2] =
      branchRecords u B1 ++ (branchRecords u B2 ++ []) := rfl
  rw [hrr, statusesFor_append, statusesFor_append, h1, h2]
  rfl

/-- Witness for C2: team alice reports trace 100 red on the first branch
and green on the second; the final table records green. -/
theorem lastWriteWins_witness :
    statusesFor (branchRecords true [("alice", "🔴 100")]) "100" "alice" =
        [Status.red] ∧
    statusesFor (branchRecords true [("alice", "🟢 100")]) "100" "alice" =
        [Status.green] ∧
    getStatus (runResults true [[("alice", "🔴 100")], [("alice", "🟢 100")]])
        "100" "alice" = some Status.green :=
  ⟨by decide, by decide,
    lastWriteWins true [("alice", "🔴 100")] [("alice", "🟢 100")]
      "100" "alice" Status.red Status.green (by decide) (by decide)
      (by decide)⟩

/-! ### The non-empty-inner-map invariant -/

theorem setA_ne_nil {β : Type} (l : List (String × β)) (k : String) (v : β) :
    setA l k v ≠ [] := by
  cases l with
  | nil => simp [setA]
  | cons p rest =>
    show (if p.1 = k then (k, v) :: rest else p :: setA rest k v) ≠ []
    split_ifs <;> simp

theorem mem_setA {β : Type} {p : String × β} {l : List (String × β)}
    {k : String} {v : β} (h : p ∈ setA l k v) : p ∈ l ∨ p = (k, v) := by
  induction l with
  | nil =>
    simp [setA] at h
    exact Or.inr h
  | cons q rest ih =>
    simp only [setA] at h
    split_ifs at h with hq
    · rcases List.mem_cons.mp h with h1 | h1
      · exact Or.inr h1
      · exact Or.inl (List.mem_cons_of_mem q h1)
    · rcases List.mem_cons.mp h with h1 | h1
      · exact Or.inl (h1 ▸ List.mem_cons_self q rest)
      · rcases ih h1 with h2 | h2
        · exact Or.inl (List.mem_cons_of_mem q h2)
        · exact Or.inr h2

theorem recordResult_inner_ne {rs : Results} {tid team : String} {s : Status}
    (inv : ∀ q ∈ rs, q.2 ≠ []) :
    ∀ q ∈ recordResult rs tid team s, q.2 ≠ [] := by
  intro q hq
  unfold recordResult at hq
  cases hget : getA rs tid with
  | some inner =>
    rw [hget] at hq
    rcases mem_setA hq with h1 | h1
    · exact inv q h1
    · rw [h1]
      exact setA_ne_nil inner team s
  | none =>
    rw [hget] at hq
    rcases List.mem_append.mp hq with h1 | h1
    · exact inv q h1
    · simp at h1
      rw [h1]
      simp

theorem foldl_applyRec_inner_ne (recs : List (String × String × Status)) :
    ∀ rs : Results, (∀ q ∈ rs, q.2 ≠ []) →
      ∀ q ∈ recs.foldl applyRec rs, q.2 ≠ [] := by
  induction recs with
  | nil => intro rs inv q hq; exact inv q hq
  | cons r rest ih =>
    intro rs inv q hq
    exact ih (applyRec rs r) (recordResult_inner_ne inv) q hq

/-- Claim C10: every trace key of the aggregator's result table has at
least one recorded (team, status) entry — a trace entry is only created
together with a recorded status, so a trace with zero recorded statuses
never exists in the output. -/
theorem traceEntriesNonempty (u : Bool) (bs : List (List (String × String)))
    (tid : String) (inner : List (String × Status))
    (h : (tid, inner) ∈ runResults u bs) : inner ≠ [] := by
  rw [runResults_eq_fold] at h
  have := foldl_applyRec_inner_ne (runRecords u bs) []
    (by intro q hq; cases hq) (tid, inner) h
  exact this

/-- Witness for C10: a concrete run yields the trace key 100 with the
non-empty inner map recording alice's failure. -/
theorem traceEntriesNonempty_witness :
    ("100", [("alice", Status.red)]) ∈
        runResults true [[("alice", "🔴 100")]] ∧
    [("alice", Status.red)] ≠ ([] : List (String × Status)) :=
  ⟨by decide,
    traceEntriesNonempty true [[("alice", "🔴 100")]] "100"
      [("alice", Status.red)] (by decide)⟩

/-! ### The line parser matches exactly the regex pattern -/

/-- A line matches the pattern
`([\u{1F534}\u{1F7E2}])\s+([0-9_]+)` somewhere: some position starts a
status glyph, followed by one or more whitespace characters, followed by
one or more identifier characters. -/
def LineMatches (u : Bool) (line : List Char) : Prop :=
  ∃ pre g ws ds post,
    line = pre ++ g :: (ws ++ ds ++ post) ∧
    (statusOfGlyph g).isSome = true ∧
    ws ≠ [] ∧ (∀ c ∈ ws, isJsWhitespace c = true) ∧
    ds ≠ [] ∧ (∀ c ∈ ds, isIdChar u c = true)

theorem isIdChar_not_ws (u : Bool) (c : Char) (h : isIdChar u c = true) :
    isJsWhitespace c = false := by
  simp only [isIdChar, Bool.or_eq_true, Bool.and_eq_true, beq_iff_eq,
    decide_eq_true_eq] at h
  by_contra hw
  rw [Bool.not_eq_false] at hw
  simp only [isJsWhitespace, Bool.or_eq_true, Bool.and_eq_true, beq_iff_eq,
    decide_eq_true_eq] at hw
  rcases h with ⟨h1, h2⟩ | ⟨_, h3⟩ <;> omega

theorem takeWhile_append_all {p : Char → Bool} {l : List Char}
    (l' : List Char) (h : ∀ c ∈ l, p c = true) :
    (l ++ l').takeWhile p = l ++ l'.takeWhile p := by
  induction l with
  | nil => simp
  | cons c rest ih =>
    rw [List.cons_append, List.takeWhile_cons,
      h c (List.mem_cons_self c rest),
      ih (fun d hd => h d (List.mem_cons_of_mem c hd))]
    simp

theorem dropWhile_append_all {p : Char → Bool} {l : List Char}
    (l' : List Char) (h : ∀ c ∈ l, p c = true) :
    (l ++ l').dropWhile p = l'.dropWhile p := by
  induction l with
  | nil => simp
  | cons c rest ih =>
    rw [List.cons_append, List.dropWhile_cons,
      h c (List.mem_cons_self c rest)]
    simp only [if_pos rfl]
    exact ih (fun d hd => h d (List.mem_cons_of_mem c hd))

theorem isEmpty_false_of_ne_nil {l : List Char} (h : l ≠ []) :
    l.isEmpty = false := by
  cases l with
  | nil => exact absurd rfl h
  | cons c rest => rfl

/-- A well-formed whitespace-then-identifier decomposition makes the
regex tail succeed. -/
theorem matchAfterGlyph_of_decomp (u : Bool) (ws ds post : List Char)
    (hws : ws ≠ []) (hwsall : ∀ c ∈ ws, isJsWhitespace c = true)
    (hds : ds ≠ []) (hdsall : ∀ c ∈ ds, isIdChar u c = true) :
    matchAfterGlyph u (ws ++ ds ++ post) =
      some (ds ++ post.takeWhile (isIdChar u)) := by
  obtain ⟨d, ds', rfl⟩ : ∃ d ds', ds = d :: ds' := by
    cases ds with
    | nil => exact absurd rfl hds
    | cons d ds' => exact ⟨d, ds', rfl⟩
  have hd : isJsWhitespace d = false :=
    isIdChar_not_ws u d (hdsall d (List.mem_cons_self d ds'))
  have h1 : ((ws ++ (d :: ds')) ++ post).takeWhile isJsWhitespace = ws := by
    rw [List.append_assoc, takeWhile_append_all _ hwsall,
      List.cons_append, List.takeWhile_cons, hd]
    simp
  have h2 : ((ws ++ (d :: ds')) ++ post).dropWhile isJsWhitespace =
      (d :: ds') ++ post := by
    rw [List.append_assoc, dropWhile_append_all _ hwsall,
      List.cons_append, List.dropWhile_cons, hd]
    rfl
  have h3 : ((d :: ds') ++ post).takeWhile (isIdChar u) =
      (d :: ds') ++ post.takeWhile (isIdChar u) :=
    takeWhile_append_all _ hdsall
  unfold matchAfterGlyph
  rw [h1, h2, h3, isEmpty_false_of_ne_nil hws]
  simp

/-- The success of the regex tail yields a well-formed decomposition. -/
theorem matchAfterGlyph_decomp (u : Bool) (cs ds0 : List Char)
    (hm : matchAfterGlyph u cs = some ds0) :
    ∃ ws post,
      cs = ws ++ ds0 ++ post ∧
      ws ≠ [] ∧ (∀ c ∈ ws, isJsWhitespace c = true) ∧
      ds0 ≠ [] ∧ (∀ c ∈ ds0, isIdChar u c = true) := by
  unfold matchAfterGlyph at hm
  split_ifs at hm with h1 h2
  have hds0 : ds0 = (cs.dropWhile isJsWhitespace).takeWhile (isIdChar u) :=
    (Option.some.inj hm).symm
  subst hds0
  refine ⟨cs.takeWhile isJsWhitespace,
    (cs.dropWhile isJsWhitespace).dropWhile (isIdChar u), ?_, ?_, ?_, ?_, ?_⟩
  · rw [List.append_assoc,
      List.takeWhile_append_dropWhile (isIdChar u)
        (cs.dropWhile isJsWhitespace),
      List.takeWhile_append_dropWhile isJsWhitespace cs]
  · intro hnil
    rw [hnil] at h1
    exact h1 rfl
  · intro c hc
    exact List.mem_takeWhile_imp hc
  · intro hnil
    rw [hnil] at h2
    exact h2 rfl
  · intro c hc
    exact List.mem_takeWhile_imp hc

/-- `findMatch` succeeds exactly on the lines the regex matches. -/
theorem findMatch_isSome_iff (u : Bool) (line : List Char) :
    (findMatch u line).isSome = true ↔ LineMatches u line := by
  induction line with
  | nil =>
    constructor
    · intro h
      simp [findMatch] at h
    · rintro ⟨pre, g, ws, ds, post, heq, -⟩
      cases pre <;> simp at heq
  | cons c cs ih =>
    cases hg : statusOfGlyph c with
    | some s =>
      cases hm : matchAfterGlyph u cs with
      | some ds0 =>
        constructor
        · intro _
          obtain ⟨ws, post, hcs, hws, hwsall, hds, hdsall⟩ :=
            matchAfterGlyph_decomp u cs ds0 hm
          exact ⟨[], c, ws, ds0, post,
            by rw [List.nil_append, hcs, List.append_assoc],
            by rw [hg]; rfl, hws, hwsall, hds, hdsall⟩
        · intro _
          simp [findMatch, hg, hm]
      | none =>
        have hstep : findMatch u (c :: cs) = findMatch u cs := by
          simp [findMatch, hg, hm]
        rw [hstep, ih]
        constructor
        · rintro ⟨pre, g, ws, ds, post, heq, hgly, hws, hwsall, hds, hdsall⟩
          exact ⟨c :: pre, g, ws, ds, post, by rw [heq, List.cons_append],
            hgly, hws, hwsall, hds, hdsall⟩
        · rintro ⟨pre, g, ws, ds, post, heq, hgly, hws, hwsall, hds, hdsall⟩
          cases pre with
          | nil =>
            rw [List.nil_append] at heq
            injection heq with hcg hcs
            rw [hcs,
              matchAfterGlyph_of_decomp u ws ds post hws hwsall hds hdsall]
              at hm
            cases hm
          | cons p pre' =>
            rw [List.cons_append] at heq
            injection heq with hcp hrest
            exact ⟨pre', g, ws, ds, post, hrest, hgly, hws, hwsall, hds,
              hdsall⟩
    | none =>
      have hstep : findMatch u (c :: cs) = findMatch u cs := by
        simp [findMatch, hg]
      rw [hstep, ih]
      constructor
      · rintro ⟨pre, g, ws, ds, post, heq, hgly, hws, hwsall, hds, hdsall⟩
        exact ⟨c :: pre, g, ws, ds, post, by rw [heq, List.cons_append],
          hgly, hws, hwsall, hds, hdsall⟩
      · rintro ⟨pre, g, ws, ds, post, heq, hgly, hws, hwsall, hds, hdsall⟩
        cases pre with
        | nil =>
          rw [List.nil_append] at heq
          injection heq with hcg hcs
          rw [hcg] at hg
          rw [hg] at hgly
          cases hgly
        | cons p pre' =>
          rw [List.cons_append] at heq
          injection heq with hcp hrest
          exact ⟨pre', g, ws, ds, post, hrest, hgly, hws, hwsall, hds,
            hdsall⟩

/-- Claim C3: for every line, the parser emits exactly one (status,
trace-id) pair when the line matches the glyph-whitespace-identifier
pattern, and emits nothing when it does not match; non-matching lines are
not errors (the parser is total). -/
theorem parseLine_spec (u : Bool) (line : List Char) :
    ((parseLine u line).length = 1 ↔ LineMatches u line) ∧
    (parseLine u line = [] ↔ ¬ LineMatches u line) := by
  unfold parseLine
  cases hf : findMatch u line with
  | some p =>
    have : LineMatches u line := by
      rw [← findMatch_isSome_iff, hf]
      rfl
    exact ⟨by simp [this], by simp [this]⟩
  | none =>
    have : ¬ LineMatches u line := by
      rw [← findMatch_isSome_iff, hf]
      simp
    exact ⟨by simp [this], by simp [this]⟩

/-! ### Template updater: splice and frame -/

theorem isPrefixOf_decomp {l1 l2 : List Char} (h : l1.isPrefixOf l2 = true) :
    ∃ t, l2 = l1 ++ t := by
  induction l1 generalizing l2 with
  | nil => exact ⟨l2, rfl⟩
  | cons a as ih =>
    cases l2 with
    | nil => simp [List.isPrefixOf] at h
    | cons b bs =>
      simp only [List.isPrefixOf, Bool.and_eq_true, beq_iff_eq] at h
      obtain ⟨t, ht⟩ := ih h.2
      exact ⟨t, by rw [h.1, List.cons_append, ht]⟩

theorem indexOfSub_decomp (needle hay : List Char) (i : Nat)
    (h : indexOfSub needle hay = some i) :
    i ≤ hay.length ∧ hay.drop i = needle ++ hay.drop (i + needle.length) := by
  induction hay generalizing i with
  | nil =>
    unfold indexOfSub at h
    split_ifs at h with hn
    subst hn
    injection h with h
    subst h
    exact ⟨Nat.le_refl 0, rfl⟩
  | cons c rest ih =>
    unfold indexOfSub at h
    split_ifs at h with hp
    · injection h with h
      subst h
      obtain ⟨t, ht⟩ := isPrefixOf_decomp hp
      refine ⟨Nat.zero_le _, ?_⟩
      rw [List.drop_zero, Nat.zero_add, ht, List.drop_left]
    · cases hrec : indexOfSub needle rest with
      | none =>
        rw [hrec] at h
        cases h
      | some j =>
        rw [hrec] at h
        simp only [Option.map_some'] at h
        injection h with h
        subst h
        obtain ⟨hle, hdec⟩ := ih j hrec
        refine ⟨by simpa using Nat.succ_le_succ hle, ?_⟩
        rw [List.drop_succ_cons, hdec, Nat.add_right_comm,
          List.drop_succ_cons]

/-- Claim C5: when either marker is missing from the target document, the
updater reports failure and the document is left byte-for-byte
unchanged. -/
theorem markersAbsent_noWrite (doc table : List Char)
    (h : indexOfSub startMarker.toList doc = none ∨
      indexOfSub endMarker.toList doc = none) :
    writtenDoc doc table = doc := by
  unfold writtenDoc updateDoc
  rcases h with h | h
  · rw [h]
  · rw [h]
    cases indexOfSub startMarker.toList doc <;> rfl

/-- Witness for C5: a document without markers is returned unchanged. -/
theorem markersAbsent_noWrite_witness :
    indexOfSub startMarker.toList "hello".toList = none ∧
    writtenDoc "hello".toList "T".toList = "hello".toList :=
  ⟨by decide,
    markersAbsent_noWrite "hello".toList "T".toList (Or.inl (by decide))⟩

/-- Claim C4: when both markers are found (the start marker ending no
later than the end marker begins), the updater replaces exactly the
content strictly between them with the rendered table padded by the
template newlines, and the start marker, the end marker, and every
character outside the marker-delimited region are preserved verbatim. -/
theorem markersPresent_splice (doc table : List Char) (si ei : Nat)
    (h1 : indexOfSub startMarker.toList doc = some si)
    (h2 : indexOfSub endMarker.toList doc = some ei)
    (h3 : si + startMarker.toList.length ≤ ei) :
    writtenDoc doc table =
      doc.take si ++ startMarker.toList ++ "\n\n".toList ++ table ++
        "\n".toList ++ endMarker.toList ++
        doc.drop (ei + endMarker.toList.length) := by
  obtain ⟨hsle, hsdec⟩ := indexOfSub_decomp _ _ _ h1
  obtain ⟨hele, hedec⟩ := indexOfSub_decomp _ _ _ h2
  have hdoc : doc =
      (doc.take si ++ startMarker.toList) ++
        doc.drop (si + startMarker.toList.length) :=
    calc doc = doc.take si ++ doc.drop si := (List.take_append_drop si doc).symm
    _ = doc.take si ++ (startMarker.toList ++
          doc.drop (si + startMarker.toList.length)) := by rw [hsdec]
    _ = (doc.take si ++ startMarker.toList) ++
          doc.drop (si + startMarker.toList.length) :=
        (List.append_assoc _ _ _).symm
  have hlen : (doc.take si ++ startMarker.toList).length =
      si + startMarker.toList.length := by
    rw [List.length_append, List.length_take, Nat.min_eq_left hsle]
  have hbefore : doc.take (si + startMarker.toList.length) =
      doc.take si ++ startMarker.toList := by
    conv_lhs => rw [hdoc]
    exact List.take_left' hlen
  unfold writtenDoc updateDoc
  rw [h1, h2]
  show doc.take (si + startMarker.toList.length) ++ "\n\n".toList ++ table ++
      "\n".toList ++ doc.drop ei = _
  rw [hbefore, hedec]
  simp [List.append_assoc]

/-- A concrete document holding both markers around a placeholder. -/
def docW : List Char :=
  ("A" ++ startMarker ++ "B" ++ endMarker ++ "C").toList

/-- Witness for C4: splicing the concrete document replaces the
placeholder and keeps the surrounding bytes. -/
theorem markersPresent_splice_witness :
    indexOfSub startMarker.toList docW = some 1 ∧
    indexOfSub endMarker.toList docW = some 34 ∧
    1 + startMarker.toList.length ≤ 34 ∧
    writtenDoc docW "T".toList =
      docW.take 1 ++ startMarker.toList ++ "\n\n".toList ++ "T".toList ++
        "\n".toList ++ endMarker.toList ++
        docW.drop (34 + endMarker.toList.length) :=
  ⟨by decide, by decide, by decide,
    markersPresent_splice docW "T".toList 1 34 (by decide) (by decide)
      (by decide)⟩

/-! ### Keys of the result table -/

theorem getA_mem {β : Type} {l : List (String × β)} {k : String} {v : β}
    (h : getA l k = some v) : (k, v) ∈ l := by
  induction l with
  | nil => cases h
  | cons p rest ih =>
    rw [getA_cons] at h
    split_ifs at h with hp
    · injection h with h
      have hkv : (k, v) = p := by rw [← hp, ← h]
      exact hkv ▸ List.mem_cons_self p rest
    · exact List.mem_cons_of_mem p (ih h)

theorem getA_eq_none_iff {β : Type} (l : List (String × β)) (k : String) :
    getA l k = none ↔ k ∉ keysA l := by
  induction l with
  | nil => simp [getA, keysA]
  | cons p rest ih =>
    rw [getA_cons]
    by_cases hp : p.1 = k
    · simp [hp, keysA]
    · simp only [if_neg hp, ih, keysA, List.map_cons, List.mem_cons]
      constructor
      · intro h hk
        rcases hk with hk | hk
        · exact hp hk.symm
        · exact h hk
      · intro h hk
        exact h (Or.inr hk)

theorem mem_keysA_setA {β : Type} (l : List (String × β)) (k j : String)
    (v : β) :
    j ∈ keysA (setA l k v) ↔ j ∈ keysA l ∨ j = k := by
  induction l with
  | nil => simp [setA, keysA]
  | cons p rest ih =>
    simp only [setA]
    split_ifs with hp
    · simp only [keysA, List.map_cons, List.mem_cons]
      rw [← hp]
      tauto
    · simp only [keysA, List.map_cons, List.mem_cons] at ih ⊢
      rw [ih]
      tauto

theorem mem_keysA_record (rs : Results) (tid team : String) (s : Status)
    (j : String) :
    j ∈ keysA (recordResult rs tid team s) ↔ j ∈ keysA rs ∨ j = tid := by
  unfold recordResult
  cases hget : getA rs tid with
  | some inner => exact mem_keysA_setA rs tid j (setA inner team s)
  | none =>
    simp [keysA, List.mem_map]

theorem mem_keysA_foldl (recs : List (String × String × Status)) :
    ∀ (rs : Results) (j : String),
      j ∈ keysA (recs.foldl applyRec rs) ↔
        j ∈ keysA rs ∨ ∃ r ∈ recs, r.2.1 = j := by
  induction recs with
  | nil => simp
  | cons r rest ih =>
    intro rs j
    rw [List.foldl_cons, ih]
    show j ∈ keysA (recordResult rs r.2.1 r.1 r.2.2) ∨ _ ↔ _
    rw [mem_keysA_record]
    simp only [List.mem_cons]
    constructor
    · rintro ((h | h) | ⟨r', hr', hj⟩)
      · exact Or.inl h
      · exact Or.inr ⟨r, Or.inl rfl, h.symm⟩
      · exact Or.inr ⟨r', Or.inr hr', hj⟩
    · rintro (h | ⟨r', hr' | hr', hj⟩)
      · exact Or.inl (Or.inl h)
      · exact Or.inl (Or.inr (by rw [hr'] at hj; exact hj.symm))
      · exact Or.inr ⟨r', hr', hj⟩

/-- A trace identifier is a key of the run's result table exactly when it
was extracted somewhere in the run. -/
theorem mem_keysA_runResults (u : Bool) (bs : List (List (String × String)))
    (j : String) :
    j ∈ keysA (runResults u bs) ↔ j ∈ tracesSeen u bs := by
  rw [runResults_eq_fold, mem_keysA_foldl]
  simp [tracesSeen, keysA, List.mem_map]

theorem keysA_setA_eq_of_mem {β : Type} {l : List (String × β)} {k : String}
    (v : β) (h : k ∈ keysA l) : keysA (setA l k v) = keysA l := by
  induction l with
  | nil => cases h
  | cons p rest ih =>
    simp only [setA]
    split_ifs with hp
    · simp [keysA, hp]
    · have h2 : k = p.1 ∨ k ∈ keysA rest := by
        have h' := h
        simp only [keysA, List.map_cons, List.mem_cons] at h'
        exact h'
      have h1 : k ∈ keysA rest := by
        rcases h2 with h1 | h1
        · exact absurd h1.symm hp
        · exact h1
      show keysA (p :: setA rest k v) = keysA (p :: rest)
      simp only [keysA, List.map_cons]
      congr 1
      exact ih h1

theorem nodup_keysA_record {rs : Results} (tid team : String) (s : Status)
    (h : (keysA rs).Nodup) : (keysA (recordResult rs tid team s)).Nodup := by
  unfold recordResult
  cases hget : getA rs tid with
  | some inner =>
    have hmem : tid ∈ keysA rs := by
      rw [keysA, List.mem_map]
      exact ⟨(tid, inner), getA_mem hget, rfl⟩
    rw [keysA_setA_eq_of_mem _ hmem]
    exact h
  | none =>
    have hmem : tid ∉ keysA rs := (getA_eq_none_iff rs tid).mp hget
    have : keysA (rs ++ [(tid, [(team, s)])]) = keysA rs ++ [tid] := by
      simp [keysA]
    rw [this, List.nodup_append]
    refine ⟨h, List.nodup_singleton tid, ?_⟩
    intro a ha hat
    rw [List.mem_singleton] at hat
    exact hmem (hat ▸ ha)

theorem nodup_keysA_foldl (recs : List (String × String × Status)) :
    ∀ rs : Results, (keysA rs).Nodup →
      (keysA (recs.foldl applyRec rs)).Nodup := by
  induction recs with
  | nil => intro rs h; exact h
  | cons r rest ih =>
    intro rs h
    exact ih (applyRec rs r) (nodup_keysA_record r.2.1 r.1 r.2.2 h)

theorem nodup_keysA_runResults (u : Bool)
    (bs : List (List (String × String))) :
    (keysA (runResults u bs)).Nodup := by
  rw [runResults_eq_fold]
  exact nodup_keysA_foldl (runRecords u bs) [] List.nodup_nil

theorem nodup_runTraces (u : Bool) (bs : List (List (String × String))) :
    (runTraces u bs).Nodup := by
  have hperm := List.perm_insertionSort strLe
    (keysA (runResults u bs))
  exact hperm.nodup_iff.mpr (nodup_keysA_runResults u bs)

/-! ### Every recorded team is in the discovered team set -/

/-- All teams recorded anywhere in the result table belong to the team
set. -/
def TeamsClosed (st : AggState) : Prop :=
  ∀ p ∈ st.results, ∀ q ∈ p.2, q.1 ∈ st.allTeams

theorem mem_addTeam_self (ts : List String) (team : String) :
    team ∈ addTeam ts team := by
  unfold addTeam
  split_ifs with h
  · exact h
  · simp

theorem mem_addTeam_mono {ts : List String} (team : String) {x : String}
    (h : x ∈ ts) : x ∈ addTeam ts team := by
  unfold addTeam
  split_ifs with h2
  · exact h
  · simp [h]

theorem recordResult_closed {rs : Results} {tid team : String} {s : Status}
    {ts : List String} (hrs : ∀ p ∈ rs, ∀ q ∈ p.2, q.1 ∈ ts)
    (hteam : team ∈ ts) :
    ∀ p ∈ recordResult rs tid team s, ∀ q ∈ p.2, q.1 ∈ ts := by
  intro p hp q hq
  unfold recordResult at hp
  cases hget : getA rs tid with
  | some inner =>
    rw [hget] at hp
    rcases mem_setA hp with h1 | h1
    · exact hrs p h1 q hq
    · rw [h1] at hq
      rcases mem_setA hq with h2 | h2
      · exact hrs (tid, inner) (getA_mem hget) q h2
      · rw [h2]
        exact hteam
  | none =>
    rw [hget] at hp
    rcases List.mem_append.mp hp with h1 | h1
    · exact hrs p h1 q hq
    · rw [List.mem_singleton] at h1
      rw [h1] at hq
      rw [show ((tid, [(team, s)]) : String × List (String × Status)).2 =
        [(team, s)] from rfl, List.mem_singleton] at hq
      rw [hq]
      exact hteam

theorem foldl_events_closed (u : Bool) (team : String)
    (events : List (Status × String)) :
    ∀ st : AggState, TeamsClosed st → team ∈ st.allTeams →
      TeamsClosed (events.foldl
        (fun acc e =>
          { acc with results := recordResult acc.results e.2 team e.1 })
        st) := by
  induction events with
  | nil => intro st h _; exact h
  | cons e rest ih =>
    intro st h hteam
    refine ih _ ?_ hteam
    intro p hp q hq
    exact recordResult_closed h hteam p hp q hq

theorem processFile_closed (u : Bool) (st : AggState) (team content : String)
    (h : TeamsClosed st) : TeamsClosed (processFile u st team content) := by
  unfold processFile
  refine foldl_events_closed u team (fileEvents u content) _ ?_
    (mem_addTeam_self st.allTeams team)
  intro p hp q hq
  exact mem_addTeam_mono team (h p hp q hq)

theorem processBranch_closed (u : Bool) (files : List (String × String)) :
    ∀ st : AggState, TeamsClosed st → TeamsClosed (processBranch u st files) := by
  induction files with
  | nil => intro st h; exact h
  | cons f rest ih =>
    intro st h
    exact ih (processFile u st f.1 f.2) (processFile_closed u st f.1 f.2 h)

theorem processRun_closed (u : Bool) (bs : List (List (String × String))) :
    TeamsClosed (processRun u bs) := by
  unfold processRun
  have hgen : ∀ (l : List (List (String × String))) (st : AggState),
      TeamsClosed st → TeamsClosed (l.foldl (processBranch u) st) := by
    intro l
    induction l with
    | nil => intro st h; exact h
    | cons b rest ih =>
      intro st h
      exact ih (processBranch u st b) (processBranch_closed u b st h)
  exact hgen bs ⟨[], []⟩ (by intro p hp; cases hp)

/-! ### The partition into interesting and boring traces -/

theorem hasFailure_iff (rs : Results) (teams : List String) (t : String) :
    hasFailure rs teams t = true ↔
      ∃ tm ∈ teams, getStatus rs t tm = some Status.red := by
  unfold hasFailure
  cases hget : getA rs t with
  | none => simp [getStatus, hget]
  | some m => simp [getStatus, hget, List.any_eq_true]

/-- Claim C1: after a run, the traces are partitioned into two disjoint,
order-preserving groups; a trace lands in the interesting group iff some
team's recorded status for it is red, and a trace with no recorded
statuses is never interesting. -/
theorem tracePartition (u : Bool) (bs : List (List (String × String))) :
    (∀ t, t ∈ runInteresting u bs ↔
      t ∈ runTraces u bs ∧
        ∃ tm, getStatus (runResults u bs) t tm = some Status.red) ∧
    (∀ t, (∀ tm, getStatus (runResults u bs) t tm = none) →
      t ∉ runInteresting u bs) ∧
    (∀ t, ¬ (t ∈ runInteresting u bs ∧ t ∈ runBoring u bs)) ∧
    List.Sublist (runInteresting u bs) (runTraces u bs) ∧
    List.Sublist (runBoring u bs) (runTraces u bs) := by
  have hiff : ∀ t, t ∈ runInteresting u bs ↔
      t ∈ runTraces u bs ∧
        ∃ tm, getStatus (runResults u bs) t tm = some Status.red := by
    intro t
    unfold runInteresting interestingTraces
    rw [List.mem_filter]
    show t ∈ runTraces u bs ∧ _ ↔ _
    constructor
    · rintro ⟨hmem, hfail⟩
      obtain ⟨tm, _, hred⟩ := (hasFailure_iff _ _ _).mp hfail
      exact ⟨hmem, tm, hred⟩
    · rintro ⟨hmem, tm, hred⟩
      refine ⟨hmem, (hasFailure_iff _ _ _).mpr ⟨tm, ?_, hred⟩⟩
      have hm : ∃ m, getA (runResults u bs) t = some m ∧
          getA m tm = some Status.red := by
        unfold getStatus at hred
        cases hget : getA (runResults u bs) t with
        | none => rw [hget] at hred; cases hred
        | some m => rw [hget] at hred; exact ⟨m, rfl, hred⟩
      obtain ⟨m, hget, hred2⟩ := hm
      have hclosed := processRun_closed u bs (t, m) (getA_mem hget)
        (tm, Status.red) (getA_mem hred2)
      unfold runTeams sortedTeamsOf
      rw [List.mem_insertionSort teamRel]
      exact hclosed
  refine ⟨hiff, ?_, ?_, ?_, ?_⟩
  · intro t hall hmem
    obtain ⟨-, tm, hred⟩ := (hiff t).mp hmem
    rw [hall tm] at hred
    cases hred
  · rintro t ⟨hint, hbor⟩
    unfold runInteresting interestingTraces at hint
    unfold runBoring boringTraces at hbor
    rw [List.mem_filter] at hint hbor
    rw [hint.2] at hbor
    simp at hbor
  · exact List.filter_sublist _
  · exact List.filter_sublist _

/-- A concrete run: alice passes traces 100 and 200, bob fails 100. -/
def runW : List (List (String × String)) :=
  [[("alice", "🟢 100\n🟢 200")], [("bob", "🔴 100")]]

/-- Witness for C1: trace 100 (failed by bob) is in the interesting group
and, by disjointness, not in the boring group. -/
theorem tracePartition_witness :
    "100" ∈ runInteresting true runW ∧ "100" ∉ runBoring true runW :=
  have w1 : "100" ∈ runInteresting true runW :=
    ((tracePartition true runW).1 "100").mpr ⟨by decide, "bob", by decide⟩
  ⟨w1, fun hb => (tracePartition true runW).2.2.1 "100" ⟨w1, hb⟩⟩

/-! ### Per-team statistics -/

theorem teamStats_foldl_general (rs : Results) (team : String)
    (traces : List String) :
    ∀ acc : Nat × Nat × Nat,
      traces.foldl
        (fun acc t =>
          match getStatus rs t team with
          | some Status.red => (acc.1 + 1, acc.2.1, acc.2.2)
          | some Status.green => (acc.1, acc.2.1 + 1, acc.2.2)
          | none => (acc.1, acc.2.1, acc.2.2 + 1)) acc =
      (acc.1 + traces.countP
          (fun t => decide (getStatus rs t team = some Status.red)),
       acc.2.1 + traces.countP
          (fun t => decide (getStatus rs t team = some Status.green)),
       acc.2.2 + traces.countP
          (fun t => (getStatus rs t team).isNone)) := by
  induction traces with
  | nil => intro acc; simp
  | cons t rest ih =>
    intro acc
    rw [List.foldl_cons, ih]
    cases hstat : getStatus rs t team with
    | some s =>
      cases s <;> simp [List.countP_cons, hstat, Prod.ext_iff] <;> omega
    | none =>
      simp [List.countP_cons, hstat, Prod.ext_iff]
      omega

/-- `teamStats` is exactly the triple of counts over the given traces. -/
theorem teamStats_eq_counts (rs : Results) (traces : List String)
    (team : String) :
    teamStats rs traces team =
      (traces.countP (fun t => decide (getStatus rs t team = some Status.red)),
       traces.countP
         (fun t => decide (getStatus rs t team = some Status.green)),
       traces.countP (fun t => (getStatus rs t team).isNone)) := by
  unfold teamStats
  rw [teamStats_foldl_general]
  simp

/-- Claim C6: the summary-row statistics of a run count, per team, the
failing, passing and unknown traces over all traces of the run (the sorted
key list of the result table, whose members are exactly the trace ids
extracted anywhere in the run), not only the interesting ones; the unknown
count counts exactly the traces with no recorded status for the team. -/
theorem teamStatsOverAllTraces (u : Bool)
    (bs : List (List (String × String))) (team : String) :
    teamStats (runResults u bs) (runTraces u bs) team =
      ((runTraces u bs).countP
        (fun t => decide (getStatus (runResults u bs) t team =
          some Status.red)),
       (runTraces u bs).countP
        (fun t => decide (getStatus (runResults u bs) t team =
          some Status.green)),
       (runTraces u bs).countP
        (fun t => (getStatus (runResults u bs) t team).isNone)) ∧
    (∀ t, t ∈ runTraces u bs ↔ t ∈ tracesSeen u bs) := by
  refine ⟨teamStats_eq_counts _ _ _, ?_⟩
  intro t
  unfold runTraces sortedTracesOf
  rw [List.mem_insertionSort strLe]
  exact mem_keysA_runResults u bs t

theorem counts_partition (rs : Results) (team : String)
    (traces : List String) :
    traces.countP (fun t => decide (getStatus rs t team = some Status.red)) +
      traces.countP
        (fun t => decide (getStatus rs t team = some Status.green)) +
      traces.countP (fun t => (getStatus rs t team).isNone) =
      traces.length := by
  induction traces with
  | nil => simp
  | cons t rest ih =>
    cases hstat : getStatus rs t team with
    | some s =>
      cases s <;> simp [List.countP_cons, hstat] <;> omega
    | none =>
      simp [List.countP_cons, hstat]
      omega

/-- Claim C9: for every team, failing + passing + unknown equals the
number of distinct trace identifiers seen in the run. -/
theorem teamStatsSum (u : Bool) (bs : List (List (String × String)))
    (team : String) :
    (teamStats (runResults u bs) (runTraces u bs) team).1 +
      (teamStats (runResults u bs) (runTraces u bs) team).2.1 +
      (teamStats (runResults u bs) (runTraces u bs) team).2.2 =
      (runTraces u bs).length ∧
    (runTraces u bs).Nodup := by
  rw [teamStats_eq_counts]
  exact ⟨counts_partition _ _ _, nodup_runTraces u bs⟩

/-! ### Team ordering: the priority team sorts first -/

/-- Claim C7: when present among the discovered teams, the priority team
name sorts first regardless of alphabetical position, and all the other
team names follow in strictly alphabetical order. -/
theorem priorityTeamFirst (ts : List String)
    (h1 : "typeberry" ∈ ts) (h2 : ts.Nodup) :
    ∃ rest, sortedTeamsOf ts = "typeberry" :: rest ∧
      List.Sorted (fun a b => strLe a b ∧ a ≠ b) rest ∧
      List.Perm ("typeberry" :: rest) ts := by
  have hsorted : List.Sorted teamRel (sortedTeamsOf ts) :=
    List.sorted_insertionSort teamRel ts
  have hperm : List.Perm (sortedTeamsOf ts) ts :=
    List.perm_insertionSort teamRel ts
  have hmem : "typeberry" ∈ sortedTeamsOf ts := by
    unfold sortedTeamsOf
    rw [List.mem_insertionSort teamRel]
    exact h1
  cases hsort : sortedTeamsOf ts with
  | nil =>
    rw [hsort] at hmem
    cases hmem
  | cons hd rest =>
    rw [hsort] at hsorted hperm hmem
    have hhd : hd = "typeberry" := by
      rcases List.mem_cons.mp hmem with h | h
      · exact h.symm
      · have hrel : teamRel hd "typeberry" := (List.sorted_cons.mp hsorted).1 _ h
        rcases hrel with hh | ⟨hne, -⟩
        · exact hh
        · exact absurd rfl hne
    subst hhd
    refine ⟨rest, rfl, ?_, hperm⟩
    have hnodup : ("typeberry" :: rest).Nodup := hperm.nodup_iff.mpr h2
    have hnotb : "typeberry" ∉ rest := (List.nodup_cons.mp hnodup).1
    have hrest_sorted : List.Sorted teamRel rest :=
      (List.sorted_cons.mp hsorted).2
    have hrest_nodup : rest.Nodup := (List.nodup_cons.mp hnodup).2
    have hpair := List.Pairwise.and hrest_sorted hrest_nodup
    refine List.Pairwise.imp_of_mem ?_ hpair
    rintro a b ha hb ⟨hrel, hne⟩
    rcases hrel with hh | ⟨-, hle⟩
    · exact absurd (hh ▸ ha) hnotb
    · exact ⟨hle, hne⟩

/-- Witness for C7: with teams alpha and typeberry, typeberry sorts first
even though alpha precedes it alphabetically. -/
theorem priorityTeamFirst_witness :
    "typeberry" ∈ ["alpha", "typeberry"] ∧
    ∃ rest, sortedTeamsOf ["alpha", "typeberry"] = "typeberry" :: rest ∧
      List.Sorted (fun a b => strLe a b ∧ a ≠ b) rest ∧
      List.Perm ("typeberry" :: rest) ["alpha", "typeberry"] :=
  ⟨by decide,
    priorityTeamFirst ["alpha", "typeberry"] (by decide) (by decide)⟩

/-! ### Rendering is a deterministic function of the extracted facts -/

theorem insertionSort_eq_of_perm {r : String → String → Prop}
    [DecidableRel r] [IsTotal String r] [IsTrans String r]
    [IsAntisymm String r] {l1 l2 : List String} (h : List.Perm l1 l2) :
    l1.insertionSort r = l2.insertionSort r :=
  List.eq_of_perm_of_sorted
    ((List.perm_insertionSort r l1).trans
      (h.trans (List.perm_insertionSort r l2).symm))
    (List.sorted_insertionSort r l1) (List.sorted_insertionSort r l2)

theorem teamStats_ext {r1 r2 : Results} (team : String)
    (traces : List String)
    (hs : ∀ t, getStatus r1 t team = getStatus r2 t team) :
    teamStats r1 traces team = teamStats r2 traces team := by
  unfold teamStats
  apply List.foldl_ext
  intro acc t _
  rw [hs t]

theorem linkify_ext {bm1 bm2 : List (String × String)}
    (hb : ∀ t, getA bm1 t = getA bm2 t) (t : String) :
    linkify bm1 t = linkify bm2 t := by
  unfold linkify
  rw [hb t]

theorem hasFailure_ext {r1 r2 : Results} (teams : List String) (t : String)
    (hs : ∀ tm, getStatus r1 t tm = getStatus r2 t tm) :
    hasFailure r1 teams t = hasFailure r2 teams t := by
  rw [Bool.eq_iff_iff, hasFailure_iff, hasFailure_iff]
  constructor <;> rintro ⟨tm, htm, hred⟩
  · exact ⟨tm, htm, by rw [← hs tm]; exact hred⟩
  · exact ⟨tm, htm, by rw [hs tm]; exact hred⟩

theorem dataRowOf_ext {r1 r2 : Results} {bm1 bm2 : List (String × String)}
    (teams : List String) (trace : String)
    (hs : ∀ tm, getStatus r1 trace tm = getStatus r2 trace tm)
    (hb : ∀ t, getA bm1 t = getA bm2 t) :
    dataRowOf r1 bm1 teams trace = dataRowOf r2 bm2 teams trace := by
  unfold dataRowOf
  rw [linkify_ext hb]
  apply List.foldl_ext
  intro row team _
  rw [hs team]

theorem redRowOf_ext {r1 r2 : Results} (traces teams : List String)
    (hs : ∀ t tm, getStatus r1 t tm = getStatus r2 t tm) :
    redRowOf r1 traces teams = redRowOf r2 traces teams := by
  unfold redRowOf
  apply List.foldl_ext
  intro row team _
  rw [teamStats_ext team traces (fun t => hs t team)]

theorem greenRowOf_ext {r1 r2 : Results} (traces teams : List String)
    (hs : ∀ t tm, getStatus r1 t tm = getStatus r2 t tm) :
    greenRowOf r1 traces teams = greenRowOf r2 traces teams := by
  unfold greenRowOf
  apply List.foldl_ext
  intro row team _
  rw [teamStats_ext team traces (fun t => hs t team)]

theorem unknownRowOf_ext {r1 r2 : Results} (traces teams : List String)
    (hs : ∀ t tm, getStatus r1 t tm = getStatus r2 t tm) :
    unknownRowOf r1 traces teams = unknownRowOf r2 traces teams := by
  unfold unknownRowOf
  apply List.foldl_ext
  intro row team _
  rw [teamStats_ext team traces (fun t => hs t team)]

theorem mdTableOf_ext {r1 r2 : Results} {bm1 bm2 : List (String × String)}
    (teams traces interesting : List String)
    (hs : ∀ t tm, getStatus r1 t tm = getStatus r2 t tm)
    (hb : ∀ t, getA bm1 t = getA bm2 t) :
    mdTableOf r1 bm1 teams traces interesting =
      mdTableOf r2 bm2 teams traces interesting := by
  unfold mdTableOf
  rw [redRowOf_ext traces teams hs, greenRowOf_ext traces teams hs,
    unknownRowOf_ext traces teams hs]
  apply List.foldl_ext
  intro acc trace _
  rw [dataRowOf_ext teams trace (fun tm => hs trace tm) hb]

/-- Claim C8: the rendered table is a deterministic function of the
extracted facts — two result tables with the same lookups and permuted
key order, permuted team sets, and branch maps with the same lookups
render to byte-identical table strings, all iteration order being
eliminated by the sorts. In particular rendering twice over the same
aggregation output yields the same string. -/
theorem renderDeterministic (r1 r2 : Results)
    (bm1 bm2 : List (String × String)) (t1 t2 : List String)
    (hk : List.Perm (keysA r1) (keysA r2))
    (hs : ∀ t tm, getStatus r1 t tm = getStatus r2 t tm)
    (hb : ∀ t, getA bm1 t = getA bm2 t)
    (ht : List.Perm t1 t2) :
    renderTable r1 bm1 t1 = renderTable r2 bm2 t2 := by
  unfold renderTable
  have htr : sortedTracesOf r1 = sortedTracesOf r2 :=
    insertionSort_eq_of_perm hk
  have hte : sortedTeamsOf t1 = sortedTeamsOf t2 :=
    insertionSort_eq_of_perm ht
  have hint : interestingTraces r1 (sortedTeamsOf t2) =
      interestingTraces r2 (sortedTeamsOf t2) := by
    unfold interestingTraces sortedTracesOf
    rw [insertionSort_eq_of_perm hk]
    apply List.filter_congr
    intro t _
    exact hasFailure_ext (sortedTeamsOf t2) t (fun tm => hs t tm)
  rw [htr, hte, hint]
  exact mdTableOf_ext _ _ _ hs hb

/-- Witness for C8: rendering the aggregation output of a concrete run
twice gives the same bytes. -/
theorem renderDeterministic_witness :
    renderTable (runResults true runW) [] (processRun true runW).allTeams =
      renderTable (runResults true runW) [] (processRun true runW).allTeams :=
  renderDeterministic (runResults true runW) (runResults true runW) [] []
    (processRun true runW).allTeams (processRun true runW).allTeams
    (List.Perm.refl _) (fun _ _ => rfl) (fun _ => rfl) (List.Perm.refl _)

end JamDash
